import Mathlib

/-!
Verification development for the baby-shop inventory repository.

The embedded code is the string-keyed hash table with separate chaining
(`HashTableSeparateChaining` in `Question1.py`), the linear-scan lookup used by
its benchmark harness (`InventorySystem.benchmark_search`), and the iterative
`factorial` of `Question3.py`.

Modelling conventions:
* Python values of type `Any` are modelled as `Option V`: the Python value
  `None` is `none`, every other value is `some v`.  This keeps the code's
  conflation of "absent" and "stored `None`" observable (`contains` is
  literally `get(key) is not None`).
* Python's built-in `hash` is an arbitrary function `String → Int`; every
  theorem is universally quantified over it.  `hash(key) % capacity` is
  `Int.emod`, which agrees with Python's `%` for a positive modulus.
* The entry count `_size` is a Python integer, modelled as `Int`.
* The mutually recursive pair `insert`/`_resize` is modelled with an explicit
  fuel parameter counting how many nested resizes may still happen; fuel
  exhaustion yields `none`.  The operations exported to clients use fuel 2
  (one top-level resize whose reinsertions may not resize again), and the
  development proves that on every reachable table this fuel suffices.
* The float comparison `size / capacity > 0.75` is modelled exactly as
  `3 * capacity < 4 * size` (equivalent for the integer ranges involved).
-/

namespace Inventory

/-- A bucket entry: the key together with the stored Python value
(`none` models Python's `None`). -/
abbrev Entry (V : Type) := String × Option V

/-- State of `HashTableSeparateChaining`: `_capacity`, `_buckets`, `_size`. -/
structure Table (V : Type) where
  capacity : Nat
  buckets : List (List (Entry V))
  size : Int
deriving DecidableEq

variable {V : Type}

/-- The bucket scan performed by `get`, `insert` and `delete`: first entry
whose key equals `k`, if any. -/
def bucketFind (k : String) : List (Entry V) → Option (Option V)
  | [] => none
  | (k', v) :: rest => if k' = k then some v else bucketFind k rest

/-- `bucket[i] = (key, value)` at the first index whose key equals `k`
(the update branch of `insert`). -/
def bucketUpdate (k : String) (v : Option V) : List (Entry V) → List (Entry V)
  | [] => []
  | (k', v') :: rest => if k' = k then (k, v) :: rest else (k', v') :: bucketUpdate k v rest

/-- `bucket.pop(i)` at the first index whose key equals `k`
(the removal performed by `delete`). -/
def bucketRemove (k : String) : List (Entry V) → List (Entry V)
  | [] => []
  | (k', v') :: rest => if k' = k then rest else (k', v') :: bucketRemove k rest

/-- A table with `cap` fresh empty buckets (the bucket array built by
`__init__` and by `_resize`). -/
def freshTable (V : Type) (cap : Nat) : Table V :=
  ⟨cap, List.replicate cap [], 0⟩

/-- `HashTableSeparateChaining.__init__(capacity)`: the capacity is floored to
5 by `max(5, capacity)`, buckets start empty, size starts at 0. -/
def mkTable (V : Type) (c : Int) : Table V :=
  freshTable V (max 5 c).toNat

/-- `_index(key)`: `hash(key) % capacity`.  Python's `%` with a positive
modulus equals `Int.emod`, whose result is a natural number below `cap`. -/
def tIndex (hash : String → Int) (cap : Nat) (k : String) : Nat :=
  (hash k % (cap : Int)).toNat

/-- The bucket a key hashes to (`self._buckets[idx]`). -/
def bucketAt (t : Table V) (i : Nat) : List (Entry V) :=
  t.buckets.getD i []

/-- `_should_resize()`: `load_factor() > 0.75`, i.e. `size / capacity > 0.75`,
written exactly as `3 * capacity < 4 * size`. -/
def shouldResize (t : Table V) : Bool :=
  decide (3 * (t.capacity : Int) < 4 * t.size)

/-- The reinsertion loop at the end of `_resize`: feed the collected items one
by one into the given insertion routine, threading the table through and
discarding the boolean results. -/
def reinsertWith (ins : Table V → String → Option V → Option (Table V × Bool)) :
    List (Entry V) → Table V → Option (Table V)
  | [], t => some t
  | (k, v) :: rest, t =>
    match ins t k v with
    | some (t', _) => reinsertWith ins rest t'
    | none => none

/-- `insert(key, value, allow_update)` with fuel bounding the number of nested
resizes.  The resize branch inlines `_resize(self._capacity * 2 + 1)`: collect
all items in bucket order, rebuild fresh buckets of capacity
`max 5 (capacity * 2 + 1)` with size 0, and reinsert every item with
`allow_update=True` through `insert` itself (one fuel unit down). -/
def insertF (hash : String → Int) (fuel : Nat) (t : Table V) (k : String)
    (v : Option V) (allow : Bool) : Option (Table V × Bool) :=
  match fuel with
  | 0 => none
  | fuel + 1 =>
    let idx := tIndex hash t.capacity k
    let bucket := bucketAt t idx
    match bucketFind k bucket with
    | some _ =>
      if allow then
        some ({ t with buckets := t.buckets.set idx (bucketUpdate k v bucket) }, true)
      else
        some (t, false)
    | none =>
      let t1 : Table V :=
        { t with buckets := t.buckets.set idx (bucket ++ [(k, v)]), size := t.size + 1 }
      if shouldResize t1 then
        (reinsertWith (fun a b c => insertF hash fuel a b c true)
            t1.buckets.flatten (freshTable V (max 5 (t1.capacity * 2 + 1)))).map
          (fun t2 => (t2, true))
      else
        some (t1, true)

/-- The `insert` operation as clients see it: fuel 2 allows the one top-level
resize an insertion can trigger, plus the (never resizing) reinsertions. -/
def insertOp (hash : String → Int) (t : Table V) (k : String) (v : Option V)
    (allow : Bool) : Option (Table V × Bool) :=
  insertF hash 2 t k v allow

/-- `get(key)`: scan the key's bucket; return the stored value on a match and
`None` otherwise.  A stored `None` is indistinguishable from absence in the
result, exactly as in the source. -/
def get (hash : String → Int) (t : Table V) (k : String) : Option V :=
  match bucketFind k (bucketAt t (tIndex hash t.capacity k)) with
  | some v => v
  | none => none

/-- `contains(key)`: `self.get(key) is not None`. -/
def containsKey (hash : String → Int) (t : Table V) (k : String) : Bool :=
  (get hash t k).isSome

/-- `delete(key)`: pop the first entry with that key from its bucket and
decrement size; report whether a removal happened. -/
def deleteOp (hash : String → Int) (t : Table V) (k : String) : Table V × Bool :=
  let idx := tIndex hash t.capacity k
  let bucket := bucketAt t idx
  match bucketFind k bucket with
  | some _ =>
    ({ t with buckets := t.buckets.set idx (bucketRemove k bucket), size := t.size - 1 }, true)
  | none => (t, false)

/-- All entries of the table in bucket order (the order `_resize` and
`items()` traverse). -/
def entries (t : Table V) : List (Entry V) :=
  t.buckets.flatten

/-- The keys of the table, in entry order. -/
def keysOf (t : Table V) : List String :=
  (entries t).map Prod.fst

/-- The raw bucket lookup result: distinguishes a stored `None`
(`some none`) from genuine absence (`none`). -/
def found (hash : String → Int) (t : Table V) (k : String) : Option (Option V) :=
  bucketFind k (bucketAt t (tIndex hash t.capacity k))

/-- The linear search of `benchmark_search`: scan the flat record list and
return the first record whose key field matches, else `None`.  A record is
modelled as its key paired with an opaque payload. -/
def linearSearch (arr : List (String × V)) (k : String) : Option (String × V) :=
  match arr with
  | [] => none
  | p :: rest => if p.1 = k then some p else linearSearch rest k

/-- One table operation issued by a client: an `insert` call (with its
`allow_update` flag) or a `delete` call. -/
inductive Op (V : Type) where
  | ins (k : String) (v : Option V) (allow : Bool)
  | del (k : String)

/-- Run a sequence of operations against a table; `none` if some insertion
ran out of resize fuel (shown never to happen from a fresh table). -/
def runOps (hash : String → Int) : List (Op V) → Table V → Option (Table V)
  | [], t => some t
  | Op.ins k v a :: rest, t =>
    match insertOp hash t k v a with
    | some (t', _) => runOps hash rest t'
    | none => none
  | Op.del k :: rest, t => runOps hash rest (deleteOp hash t k).1

/-- The set of keys inserted and not subsequently deleted by an operation
sequence. -/
def liveKeys : List (Op V) → Finset String → Finset String
  | [], s => s
  | Op.ins k _ _ :: rest, s => liveKeys rest (insert k s)
  | Op.del k :: rest, s => liveKeys rest (s.erase k)

/-- The table after the append branch of `insert`: the new entry appended to
its bucket and the size incremented (capacity untouched). -/
def appendAt (hash : String → Int) (t : Table V) (k : String) (v : Option V) : Table V :=
  let idx := tIndex hash t.capacity k
  { t with buckets := t.buckets.set idx (bucketAt t idx ++ [(k, v)]), size := t.size + 1 }

/-- The table after the update branch of `insert` (key already present,
`allow_update` true): the entry overwritten in place. -/
def updateAt (hash : String → Int) (t : Table V) (k : String) (v : Option V) : Table V :=
  let idx := tIndex hash t.capacity k
  { t with buckets := t.buckets.set idx (bucketUpdate k v (bucketAt t idx)) }

/-- The table after a successful `delete`: the first matching entry popped
from its bucket and the size decremented (capacity untouched). -/
def removeAt (hash : String → Int) (t : Table V) (k : String) : Table V :=
  let idx := tIndex hash t.capacity k
  { t with buckets := t.buckets.set idx (bucketRemove k (bucketAt t idx)), size := t.size - 1 }

/-- The set of keys currently stored in the table. -/
def keyFinset (t : Table V) : Finset String :=
  (keysOf t).toFinset

/-- The well-formedness invariant of a table, maintained by every operation
from construction onwards. -/
structure WF (hash : String → Int) (t : Table V) : Prop where
  cap_ge : 5 ≤ t.capacity
  len_eq : t.buckets.length = t.capacity
  size_eq : t.size = ((entries t).length : Int)
  nodup : (keysOf t).Nodup
  placed : ∀ i, ∀ e ∈ bucketAt t i, tIndex hash t.capacity e.1 = i
  load_le : 4 * t.size ≤ 3 * (t.capacity : Int)

end Inventory

namespace Q3

/-- `factorial(n)` from `Question3.py`: `ValueError` for `n < 0`, otherwise
the running product of `range(2, n + 1)` starting from 1, in exact integer
arithmetic.  `range(2, n + 1)` has `max 0 (n - 1)` elements starting at 2. -/
def factorial (n : Int) : Except String Int :=
  if n < 0 then Except.error "n must be non-negative"
  else Except.ok
    ((List.range' 2 (n - 1).toNat).foldl (fun (acc : Int) (i : Nat) => acc * (i : Int)) 1)

end Q3

namespace Inventory

open scoped List

variable {V : Type} {hash : String → Int}

/-! ### Bucket-level lemmas -/

theorem bucketFind_eq_none {k : String} :
    ∀ {l : List (Entry V)}, bucketFind k l = none ↔ k ∉ l.map Prod.fst
  | [] => by simp [bucketFind]
  | (k', v) :: rest => by
    by_cases h : k' = k
    · subst h; simp [bucketFind]
    · simp [bucketFind, h, Ne.symm h, bucketFind_eq_none]

theorem mem_of_bucketFind_eq_some {k : String} {w : Option V} :
    ∀ {l : List (Entry V)}, bucketFind k l = some w → (k, w) ∈ l
  | [] => by simp [bucketFind]
  | (k', v) :: rest => by
    simp only [bucketFind]
    split
    · next h =>
      intro hf
      injection hf with hv
      subst hv
      subst h
      exact List.mem_cons_self _ _
    · next h =>
      intro hf
      exact List.mem_cons_of_mem _ (mem_of_bucketFind_eq_some hf)

theorem bucketFind_eq_some_of_mem {k : String} {w : Option V} :
    ∀ {l : List (Entry V)}, (l.map Prod.fst).Nodup → (k, w) ∈ l → bucketFind k l = some w
  | [] => by simp
  | (k', v) :: rest => by
    intro hnd hm
    simp only [List.map_cons, List.nodup_cons, List.mem_map] at hnd
    rcases List.mem_cons.1 hm with h | h
    · have h1 : k = k' := congrArg Prod.fst h
      have h2 : w = v := congrArg Prod.snd h
      subst h1
      subst h2
      simp [bucketFind]
    · have hk : k' ≠ k := by
        rintro rfl
        exact hnd.1 ⟨(k', w), h, rfl⟩
      simp only [bucketFind, if_neg hk]
      exact bucketFind_eq_some_of_mem hnd.2 h

theorem bucketUpdate_map_fst (k : String) (v : Option V) :
    ∀ (l : List (Entry V)), (bucketUpdate k v l).map Prod.fst = l.map Prod.fst
  | [] => rfl
  | (k', v') :: rest => by
    by_cases h : k' = k
    · subst h; simp [bucketUpdate]
    · simp [bucketUpdate, h, bucketUpdate_map_fst k v rest]

theorem bucketUpdate_length (k : String) (v : Option V) (l : List (Entry V)) :
    (bucketUpdate k v l).length = l.length := by
  have := congrArg List.length (bucketUpdate_map_fst k v l)
  simpa using this

theorem bucketFind_bucketUpdate_self {k : String} (v : Option V) :
    ∀ {l : List (Entry V)}, k ∈ l.map Prod.fst → bucketFind k (bucketUpdate k v l) = some v
  | [] => by simp
  | (k', v') :: rest => by
    intro hm
    by_cases h : k' = k
    · subst h; simp [bucketUpdate, bucketFind]
    · simp only [bucketUpdate, if_neg h, bucketFind, if_neg h]
      simp only [List.map_cons, List.mem_cons] at hm
      rcases hm with hm | hm
      · exact absurd hm.symm h
      · exact bucketFind_bucketUpdate_self v hm

theorem bucketFind_bucketUpdate_ne {k' k : String} (hne : k' ≠ k) (v : Option V) :
    ∀ (l : List (Entry V)), bucketFind k' (bucketUpdate k v l) = bucketFind k' l
  | [] => rfl
  | (a, b) :: rest => by
    by_cases h : a = k
    · subst h; simp [bucketUpdate, bucketFind, Ne.symm hne, hne]
    · simp [bucketUpdate, bucketFind, h, bucketFind_bucketUpdate_ne hne v rest]

theorem mem_bucketUpdate {e : Entry V} {k : String} {v : Option V} :
    ∀ {l : List (Entry V)}, e ∈ bucketUpdate k v l → e = (k, v) ∨ e ∈ l
  | [] => by simp [bucketUpdate]
  | (a, b) :: rest => by
    simp only [bucketUpdate]
    split
    · next h =>
      simp only [List.mem_cons]
      rintro (rfl | hm)
      · exact Or.inl rfl
      · exact Or.inr (Or.inr hm)
    · next h =>
      simp only [List.mem_cons]
      rintro (rfl | hm)
      · exact Or.inr (Or.inl rfl)
      · rcases mem_bucketUpdate hm with h' | h'
        · exact Or.inl h'
        · exact Or.inr (Or.inr h')

theorem bucketRemove_map_fst (k : String) :
    ∀ (l : List (Entry V)), (bucketRemove k l).map Prod.fst = (l.map Prod.fst).erase k
  | [] => rfl
  | (a, b) :: rest => by
    by_cases h : a = k
    · subst h; simp [bucketRemove, List.erase_cons_head]
    · simp [bucketRemove, h, List.erase_cons_tail, bucketRemove_map_fst k rest,
        List.beq_eq_decide, h]

theorem bucketRemove_length {k : String} :
    ∀ {l : List (Entry V)}, k ∈ l.map Prod.fst → (bucketRemove k l).length + 1 = l.length
  | [] => by simp
  | (a, b) :: rest => by
    intro hm
    by_cases h : a = k
    · subst h; simp [bucketRemove]
    · simp only [List.map_cons, List.mem_cons] at hm
      rcases hm with hm | hm
      · exact absurd hm.symm h
      · simp only [bucketRemove, if_neg h, List.length_cons]
        rw [← bucketRemove_length hm]

theorem mem_bucketRemove {e : Entry V} {k : String} :
    ∀ {l : List (Entry V)}, e ∈ bucketRemove k l → e ∈ l
  | [] => by simp [bucketRemove]
  | (a, b) :: rest => by
    simp only [bucketRemove]
    split
    · next h =>
      simp only [List.mem_cons]
      exact fun hm => Or.inr hm
    · next h =>
      simp only [List.mem_cons]
      rintro (rfl | hm)
      · exact Or.inl rfl
      · exact Or.inr (mem_bucketRemove hm)

theorem bucketFind_bucketRemove_self {k : String} {l : List (Entry V)}
    (hnd : (l.map Prod.fst).Nodup) : bucketFind k (bucketRemove k l) = none := by
  rw [bucketFind_eq_none, bucketRemove_map_fst]
  exact fun hm => ((hnd.mem_erase_iff).1 hm).1 rfl

/-! ### List decomposition helpers -/

theorem flatten_decomp (l : List (List (Entry V))) (i : Nat) (h : i < l.length) :
    l.flatten = (l.take i).flatten ++ l.getD i [] ++ (l.drop (i + 1)).flatten := by
  conv_lhs => rw [← List.take_append_drop i l]
  rw [List.flatten_append, List.drop_eq_getElem_cons h, List.flatten_cons,
    List.getD_eq_getElem l [] h, List.append_assoc]

theorem flatten_set (l : List (List (Entry V))) (i : Nat) (h : i < l.length)
    (b : List (Entry V)) :
    (l.set i b).flatten = (l.take i).flatten ++ b ++ (l.drop (i + 1)).flatten := by
  rw [List.set_eq_take_cons_drop _ h, List.flatten_append, List.flatten_cons,
    List.append_assoc]

theorem getD_set_self (l : List (List (Entry V))) {i : Nat} (h : i < l.length)
    (b : List (Entry V)) : (l.set i b).getD i [] = b := by
  rw [List.getD_eq_getElem _ _ (by simpa using h)]
  simp

theorem getD_set_ne (l : List (List (Entry V))) {i j : Nat} (h : j ≠ i)
    (b : List (Entry V)) : (l.set i b).getD j [] = l.getD j [] := by
  by_cases hj : j < l.length
  · rw [List.getD_eq_getElem _ _ (by simpa using hj), List.getD_eq_getElem _ _ hj]
    exact List.getElem_set_ne (Ne.symm h) _
  · rw [List.getD_eq_default _ _ (by simpa using le_of_not_lt hj),
      List.getD_eq_default _ _ (le_of_not_lt hj)]

/-! ### Table-level lemmas -/

theorem tIndex_lt (hash : String → Int) {cap : Nat} (h : 0 < cap) (k : String) :
    tIndex hash cap k < cap := by
  have hpos : (0 : Int) < (cap : Int) := by exact_mod_cast h
  have h1 : hash k % (cap : Int) < (cap : Int) := Int.emod_lt_of_pos _ hpos
  have h2 : 0 ≤ hash k % (cap : Int) := Int.emod_nonneg _ (by omega)
  unfold tIndex
  omega

theorem mem_keysOf_iff {t : Table V} {k : String} :
    k ∈ keysOf t ↔ ∃ w, (k, w) ∈ entries t := by
  simp only [keysOf, List.mem_map]
  constructor
  · rintro ⟨⟨k', w⟩, hm, rfl⟩
    exact ⟨w, hm⟩
  · rintro ⟨w, hm⟩
    exact ⟨(k, w), hm, rfl⟩

theorem mem_entries_of_mem_bucketAt {t : Table V} {i : Nat} {e : Entry V}
    (h : e ∈ bucketAt t i) : e ∈ entries t := by
  by_cases hi : i < t.buckets.length
  · rw [bucketAt, List.getD_eq_getElem _ _ hi] at h
    exact List.mem_flatten_of_mem (t.buckets.getElem_mem hi) h
  · rw [bucketAt, List.getD_eq_default _ _ (le_of_not_lt hi)] at h
    simp at h

theorem mem_bucketAt_of_mem_entries {t : Table V} {k : String} {w : Option V}
    (hw : WF hash t) (hm : (k, w) ∈ entries t) :
    (k, w) ∈ bucketAt t (tIndex hash t.capacity k) := by
  rcases List.mem_flatten.1 hm with ⟨b, hb, he⟩
  rcases List.mem_iff_getElem.1 hb with ⟨i, hi, rfl⟩
  have hba : bucketAt t i = t.buckets[i] := List.getD_eq_getElem _ _ hi
  have hp := hw.placed i (k, w) (by rw [hba]; exact he)
  rw [hp]
  rw [hba]
  exact he

theorem bucketAt_keys_nodup {t : Table V} (hw : WF hash t) (i : Nat) :
    ((bucketAt t i).map Prod.fst).Nodup := by
  by_cases hi : i < t.buckets.length
  · have hd := flatten_decomp t.buckets i hi
    have hk : keysOf t =
        ((t.buckets.take i).flatten.map Prod.fst ++ (bucketAt t i).map Prod.fst) ++
          (t.buckets.drop (i + 1)).flatten.map Prod.fst := by
      rw [keysOf, entries, hd, bucketAt]
      simp [List.map_append]
    have h2 := hw.nodup
    rw [hk] at h2
    exact h2.of_append_left.of_append_right
  · rw [bucketAt, List.getD_eq_default _ _ (le_of_not_lt hi)]
    simp

theorem found_eq_some_iff {t : Table V} {k : String} {w : Option V} (hw : WF hash t) :
    found hash t k = some w ↔ (k, w) ∈ entries t := by
  constructor
  · intro h
    exact mem_entries_of_mem_bucketAt (mem_of_bucketFind_eq_some h)
  · intro h
    exact bucketFind_eq_some_of_mem (bucketAt_keys_nodup hw _)
      (mem_bucketAt_of_mem_entries hw h)

theorem found_eq_none_iff {t : Table V} {k : String} (hw : WF hash t) :
    found hash t k = none ↔ k ∉ keysOf t := by
  rw [found, bucketFind_eq_none]
  constructor
  · intro h hk
    rcases mem_keysOf_iff.1 hk with ⟨w, hm⟩
    exact h (List.mem_map.2 ⟨(k, w), mem_bucketAt_of_mem_entries hw hm, rfl⟩)
  · intro hk hm
    rcases List.mem_map.1 hm with ⟨⟨k1, w⟩, he, rfl⟩
    exact hk (mem_keysOf_iff.2 ⟨w, mem_entries_of_mem_bucketAt he⟩)

theorem found_isSome_iff {t : Table V} {k : String} (hw : WF hash t) :
    (found hash t k).isSome = true ↔ k ∈ keysOf t := by
  constructor
  · intro h
    by_contra hk
    rw [← found_eq_none_iff hw] at hk
    rw [hk] at h
    simp at h
  · intro h
    cases hf : found hash t k with
    | none => exact absurd ((found_eq_none_iff hw).1 hf) (not_not_intro h)
    | some w => rfl

/-! ### Fresh tables are well-formed -/

theorem flatten_replicate_nil (n : Nat) :
    (List.replicate n ([] : List (Entry V))).flatten = [] := by
  induction n with
  | zero => rfl
  | succ n ih => simp [List.replicate_succ, ih]

theorem bucketAt_freshTable (cap i : Nat) : bucketAt (freshTable V cap) i = [] := by
  rw [bucketAt, freshTable]
  by_cases h : i < cap
  · rw [List.getD_eq_getElem _ _ (by simpa using h)]
    simp
  · rw [List.getD_eq_default _ _ (by simpa using le_of_not_lt h)]

theorem entries_freshTable (cap : Nat) : entries (freshTable V cap) = [] := by
  rw [entries, freshTable]
  exact flatten_replicate_nil cap

theorem WF_freshTable (hash : String → Int) {cap : Nat} (h : 5 ≤ cap) :
    WF hash (freshTable V cap) where
  cap_ge := h
  len_eq := by simp [freshTable]
  size_eq := by rw [entries_freshTable]; simp [freshTable]
  nodup := by rw [keysOf, entries_freshTable]; simp
  placed := by
    intro i e he
    rw [bucketAt_freshTable] at he
    simp at he
  load_le := by simp [freshTable]

theorem WF_mkTable (hash : String → Int) (c : Int) : WF hash (mkTable V c) := by
  have h5 : (5 : Int) ≤ max 5 c := le_max_left _ _
  exact WF_freshTable hash (by omega)

theorem entries_mkTable (c : Int) : entries (mkTable V c) = [] :=
  entries_freshTable _

theorem capacity_mkTable (c : Int) : (mkTable V c).capacity = (max 5 c).toNat := rfl

/-! ### Path equations for `insertF` and `deleteOp` -/

theorem shouldResize_eq_false_iff {t : Table V} :
    shouldResize t = false ↔ 4 * t.size ≤ 3 * (t.capacity : Int) := by
  rw [shouldResize, decide_eq_false_iff_not, not_lt]

theorem shouldResize_eq_true_iff {t : Table V} :
    shouldResize t = true ↔ 3 * (t.capacity : Int) < 4 * t.size := by
  rw [shouldResize, decide_eq_true_eq]

theorem get_eq_found (t : Table V) (k : String) :
    get hash t k = match found hash t k with
      | some w => w
      | none => none := rfl

theorem insertF_found_update {t : Table V} {k : String} {w : Option V} (fuel : Nat)
    (hf : found hash t k = some w) (v : Option V) :
    insertF hash (fuel + 1) t k v true = some (updateAt hash t k v, true) := by
  rw [insertF, updateAt]
  rw [found] at hf
  simp [hf]

theorem insertF_found_reject {t : Table V} {k : String} {w : Option V} (fuel : Nat)
    (hf : found hash t k = some w) (v : Option V) :
    insertF hash (fuel + 1) t k v false = some (t, false) := by
  rw [insertF]
  rw [found] at hf
  simp [hf]

theorem insertF_fresh_no_resize {t : Table V} {k : String} (fuel : Nat)
    (hf : found hash t k = none) {v : Option V}
    (hr : shouldResize (appendAt hash t k v) = false) (allow : Bool) :
    insertF hash (fuel + 1) t k v allow = some (appendAt hash t k v, true) := by
  rw [found] at hf
  simp only [appendAt] at hr ⊢
  rw [insertF]
  simp [hf, hr]

theorem insertF_fresh_resize {t : Table V} {k : String} (fuel : Nat)
    (hf : found hash t k = none) {v : Option V}
    (hr : shouldResize (appendAt hash t k v) = true) (allow : Bool) :
    insertF hash (fuel + 1) t k v allow =
      (reinsertWith (fun a b c => insertF hash fuel a b c true)
          (entries (appendAt hash t k v))
          (freshTable V (max 5 ((appendAt hash t k v).capacity * 2 + 1)))).map
        (fun t2 => (t2, true)) := by
  rw [found] at hf
  simp only [appendAt, entries] at hr ⊢
  rw [insertF]
  simp [hf, hr]

theorem deleteOp_found {t : Table V} {k : String} {w : Option V}
    (hf : found hash t k = some w) :
    deleteOp hash t k = (removeAt hash t k, true) := by
  rw [deleteOp, removeAt]
  rw [found] at hf
  simp [hf]

theorem deleteOp_not_found {t : Table V} {k : String}
    (hf : found hash t k = none) :
    deleteOp hash t k = (t, false) := by
  rw [deleteOp]
  rw [found] at hf
  simp [hf]

/-! ### The append branch -/

theorem idx_lt_len {t : Table V} (hw : WF hash t) (k : String) :
    tIndex hash t.capacity k < t.buckets.length := by
  rw [hw.len_eq]
  exact tIndex_lt hash (by have := hw.cap_ge; omega) k

theorem entries_appendAt {t : Table V} (hw : WF hash t) (k : String) (v : Option V) :
    entries (appendAt hash t k v) ~ entries t ++ [(k, v)] := by
  have hidx := idx_lt_len hw k
  rw [entries, appendAt]
  simp only
  rw [flatten_set _ _ hidx]
  conv_rhs => rw [entries, flatten_decomp t.buckets _ hidx]
  simp only [List.append_assoc, bucketAt]
  exact List.Perm.append_left _ (List.Perm.append_left _ List.perm_append_comm)

theorem keysOf_appendAt {t : Table V} (hw : WF hash t) (k : String) (v : Option V) :
    keysOf (appendAt hash t k v) ~ keysOf t ++ [k] := by
  have hp := (entries_appendAt hw k v).map Prod.fst
  simpa [keysOf, List.map_append] using hp

theorem keysOf_appendAt_nodup {t : Table V} {k : String} (hw : WF hash t)
    (hk : k ∉ keysOf t) (v : Option V) : (keysOf (appendAt hash t k v)).Nodup := by
  refine (keysOf_appendAt hw k v).nodup_iff.2 ?_
  rw [List.nodup_append]
  refine ⟨hw.nodup, List.nodup_singleton k, ?_⟩
  intro a ha hb
  rw [List.mem_singleton] at hb
  subst hb
  exact hk ha

theorem WF_appendAt {t : Table V} {k : String} (hw : WF hash t) (hk : k ∉ keysOf t)
    (v : Option V) (hl : 4 * (t.size + 1) ≤ 3 * (t.capacity : Int)) :
    WF hash (appendAt hash t k v) where
  cap_ge := hw.cap_ge
  len_eq := by simp [appendAt, hw.len_eq]
  size_eq := by
    have hlen := (entries_appendAt hw k v).length_eq
    have hs := hw.size_eq
    have hsz : (appendAt hash t k v).size = t.size + 1 := rfl
    rw [hsz]
    simp only [List.length_append, List.length_cons, List.length_nil] at hlen
    omega
  nodup := keysOf_appendAt_nodup hw hk v
  placed := by
    intro i e he
    have hidx := idx_lt_len hw k
    simp only [appendAt, bucketAt] at he ⊢
    by_cases hi : i = tIndex hash t.capacity k
    · subst hi
      rw [getD_set_self _ hidx] at he
      rcases List.mem_append.1 he with h | h
      · exact hw.placed _ e h
      · rw [List.mem_singleton] at h
        subst h
        rfl
    · rw [getD_set_ne _ hi] at he
      exact hw.placed _ e he
  load_le := by simpa [appendAt] using hl

/-! ### The update branch -/

theorem keysOf_updateAt {t : Table V} (hw : WF hash t) (k : String) (v : Option V) :
    keysOf (updateAt hash t k v) = keysOf t := by
  have hidx := idx_lt_len hw k
  rw [keysOf, entries, updateAt]
  simp only
  rw [flatten_set _ _ hidx]
  conv_rhs => rw [keysOf, entries, flatten_decomp t.buckets _ hidx]
  simp [List.map_append, bucketUpdate_map_fst, bucketAt]

theorem entries_length_updateAt {t : Table V} (hw : WF hash t) (k : String) (v : Option V) :
    (entries (updateAt hash t k v)).length = (entries t).length := by
  have h1 := congrArg List.length (keysOf_updateAt hw k v)
  simpa [keysOf] using h1

theorem found_updateAt_self {t : Table V} {k : String} {w : Option V} (hw : WF hash t)
    (hf : found hash t k = some w) (v : Option V) :
    found hash (updateAt hash t k v) k = some v := by
  have hidx := idx_lt_len hw k
  have hm : (k, w) ∈ bucketAt t (tIndex hash t.capacity k) :=
    mem_of_bucketFind_eq_some hf
  rw [found, updateAt]
  simp only [bucketAt]
  rw [getD_set_self _ hidx]
  exact bucketFind_bucketUpdate_self v (List.mem_map.2 ⟨(k, w), hm, rfl⟩)

theorem found_updateAt_ne {t : Table V} {k k' : String} (hw : WF hash t)
    (hne : k' ≠ k) (v : Option V) :
    found hash (updateAt hash t k v) k' = found hash t k' := by
  have hidx := idx_lt_len hw k
  rw [found, updateAt]
  simp only [bucketAt]
  by_cases hi : tIndex hash t.capacity k' = tIndex hash t.capacity k
  · rw [hi, getD_set_self _ hidx, bucketFind_bucketUpdate_ne hne, found, bucketAt, hi]
  · rw [getD_set_ne _ hi, found, bucketAt]

theorem WF_updateAt {t : Table V} {k : String} (hw : WF hash t) (v : Option V) :
    WF hash (updateAt hash t k v) where
  cap_ge := hw.cap_ge
  len_eq := by simp [updateAt, hw.len_eq]
  size_eq := by
    have h1 := entries_length_updateAt hw k v
    have hs := hw.size_eq
    simp only [updateAt] at h1 ⊢
    omega
  nodup := by
    rw [keysOf_updateAt hw k v]
    exact hw.nodup
  placed := by
    intro i e he
    have hidx := idx_lt_len hw k
    simp only [updateAt, bucketAt] at he ⊢
    by_cases hi : i = tIndex hash t.capacity k
    · subst hi
      rw [getD_set_self _ hidx] at he
      rcases mem_bucketUpdate he with h | h
      · subst h
        rfl
      · exact hw.placed _ e h
    · rw [getD_set_ne _ hi] at he
      exact hw.placed _ e he
  load_le := by simpa [updateAt] using hw.load_le

/-! ### The removal branch -/

theorem not_mem_keys_take {t : Table V} (hw : WF hash t) (k : String) :
    k ∉ (t.buckets.take (tIndex hash t.capacity k)).flatten.map Prod.fst := by
  intro hm
  rcases List.mem_map.1 hm with ⟨e, he, hek⟩
  rcases List.mem_flatten.1 he with ⟨b, hb, heb⟩
  rcases List.mem_iff_getElem.1 hb with ⟨j, hj, rfl⟩
  have hjlen : j < t.buckets.length := by
    have := hj
    simp only [List.length_take] at this
    omega
  have hbe : (t.buckets.take (tIndex hash t.capacity k))[j] = t.buckets[j] :=
    List.getElem_take _
  have hmem : e ∈ bucketAt t j := by
    rw [bucketAt, List.getD_eq_getElem _ _ hjlen, ← hbe]
    exact heb
  have hp := hw.placed j e hmem
  rw [hek] at hp
  have hjlt : j < tIndex hash t.capacity k := by
    have := hj
    simp only [List.length_take] at this
    omega
  omega

theorem not_mem_keys_drop {t : Table V} (hw : WF hash t) (k : String) :
    k ∉ (t.buckets.drop (tIndex hash t.capacity k + 1)).flatten.map Prod.fst := by
  intro hm
  rcases List.mem_map.1 hm with ⟨e, he, hek⟩
  rcases List.mem_flatten.1 he with ⟨b, hb, heb⟩
  rcases List.mem_iff_getElem.1 hb with ⟨j, hj, rfl⟩
  have hjlen : tIndex hash t.capacity k + 1 + j < t.buckets.length := by
    have := hj
    simp only [List.length_drop] at this
    omega
  have hbe : (t.buckets.drop (tIndex hash t.capacity k + 1))[j] =
      t.buckets[tIndex hash t.capacity k + 1 + j] := List.getElem_drop _
  have hmem : e ∈ bucketAt t (tIndex hash t.capacity k + 1 + j) := by
    rw [bucketAt, List.getD_eq_getElem _ _ hjlen, ← hbe]
    exact heb
  have hp := hw.placed _ e hmem
  rw [hek] at hp
  omega

theorem keysOf_removeAt {t : Table V} {k : String} {w : Option V} (hw : WF hash t)
    (hf : found hash t k = some w) :
    keysOf (removeAt hash t k) = (keysOf t).erase k := by
  have hidx := idx_lt_len hw k
  have hkb : k ∈ (bucketAt t (tIndex hash t.capacity k)).map Prod.fst :=
    List.mem_map.2 ⟨(k, w), mem_of_bucketFind_eq_some hf, rfl⟩
  have hdecomp : keysOf t =
      (t.buckets.take (tIndex hash t.capacity k)).flatten.map Prod.fst ++
        ((bucketAt t (tIndex hash t.capacity k)).map Prod.fst ++
          (t.buckets.drop (tIndex hash t.capacity k + 1)).flatten.map Prod.fst) := by
    rw [keysOf, entries, flatten_decomp t.buckets _ hidx, bucketAt]
    simp [List.map_append]
  rw [hdecomp, List.erase_append_right _ (by
    simpa using not_mem_keys_take hw k),
    List.erase_append_left _ (by simpa using hkb)]
  rw [keysOf, removeAt]
  simp only [entries]
  rw [flatten_set _ _ hidx]
  simp [List.map_append, bucketRemove_map_fst]

theorem entries_length_removeAt {t : Table V} {k : String} {w : Option V} (hw : WF hash t)
    (hf : found hash t k = some w) :
    (entries (removeAt hash t k)).length + 1 = (entries t).length := by
  have hidx := idx_lt_len hw k
  have hkb : k ∈ (bucketAt t (tIndex hash t.capacity k)).map Prod.fst :=
    List.mem_map.2 ⟨(k, w), mem_of_bucketFind_eq_some hf, rfl⟩
  have hrem := bucketRemove_length hkb
  have h1 : entries (removeAt hash t k) =
      (t.buckets.take (tIndex hash t.capacity k)).flatten ++
        bucketRemove k (bucketAt t (tIndex hash t.capacity k)) ++
        (t.buckets.drop (tIndex hash t.capacity k + 1)).flatten := by
    rw [entries, removeAt]
    simp only
    rw [flatten_set _ _ hidx]
  have h2 := flatten_decomp t.buckets _ hidx
  rw [h1]
  rw [entries, h2, bucketAt]
  simp only [List.length_append]
  have : (bucketAt t (tIndex hash t.capacity k)).length =
      (t.buckets.getD (tIndex hash t.capacity k) []).length := rfl
  simp only [List.length_map] at hrem
  rw [bucketAt] at hrem
  omega

theorem found_removeAt_self {t : Table V} {k : String} (hw : WF hash t) :
    found hash (removeAt hash t k) k = none := by
  have hidx := idx_lt_len hw k
  rw [found, removeAt]
  simp only [bucketAt]
  rw [getD_set_self _ hidx]
  exact bucketFind_bucketRemove_self (bucketAt_keys_nodup hw _)

theorem WF_removeAt {t : Table V} {k : String} {w : Option V} (hw : WF hash t)
    (hf : found hash t k = some w) :
    WF hash (removeAt hash t k) where
  cap_ge := hw.cap_ge
  len_eq := by simp [removeAt, hw.len_eq]
  size_eq := by
    have hlen := entries_length_removeAt hw hf
    have hs := hw.size_eq
    have hsz : (removeAt hash t k).size = t.size - 1 := rfl
    rw [hsz]
    omega
  nodup := by
    rw [keysOf_removeAt hw hf]
    exact hw.nodup.erase k
  placed := by
    intro i e he
    have hidx := idx_lt_len hw k
    simp only [removeAt, bucketAt] at he ⊢
    by_cases hi : i = tIndex hash t.capacity k
    · subst hi
      rw [getD_set_self _ hidx] at he
      exact hw.placed _ e (mem_bucketRemove he)
    · rw [getD_set_ne _ hi] at he
      exact hw.placed _ e he
  load_le := by
    have hs := hw.load_le
    have hsz : (removeAt hash t k).size = t.size - 1 := rfl
    have hcap : (removeAt hash t k).capacity = t.capacity := rfl
    rw [hsz, hcap]
    omega

/-! ### The resize machinery -/

theorem appendAt_capacity (t : Table V) (k : String) (v : Option V) :
    (appendAt hash t k v).capacity = t.capacity := rfl

theorem appendAt_size (t : Table V) (k : String) (v : Option V) :
    (appendAt hash t k v).size = t.size + 1 := rfl

theorem reinsertWith_spec (fuel : Nat) :
    ∀ (items : List (Entry V)) (acc : Table V), WF hash acc →
      (keysOf acc ++ items.map Prod.fst).Nodup →
      4 * (acc.size + (items.length : Int)) ≤ 3 * (acc.capacity : Int) →
      ∃ t2, reinsertWith (fun a b c => insertF hash (fuel + 1) a b c true) items acc =
          some t2 ∧
        t2.capacity = acc.capacity ∧ t2.size = acc.size + (items.length : Int) ∧
        entries t2 ~ entries acc ++ items ∧ WF hash t2
  | [], acc => by
    intro hw hnd hl
    exact ⟨acc, rfl, rfl, by simp, by simp, hw⟩
  | (k, v) :: rest, acc => by
    intro hw hnd hl
    have hnd' := hnd
    rw [List.map_cons, List.nodup_append] at hnd'
    obtain ⟨hnd1, hnd2, hdisj⟩ := hnd'
    have hk : k ∉ keysOf acc := fun hkm => hdisj hkm (List.mem_cons_self _ _)
    have hf : found hash acc k = none := (found_eq_none_iff hw).2 hk
    have hlcast : 4 * (acc.size + ((rest.length : Int) + 1)) ≤ 3 * (acc.capacity : Int) := by
      simp only [List.length_cons] at hl
      push_cast at hl
      omega
    have hr : shouldResize (appendAt hash acc k v) = false := by
      rw [shouldResize_eq_false_iff, appendAt_size, appendAt_capacity]
      omega
    have hins := insertF_fresh_no_resize fuel hf (v := v) hr true
    have hwa : WF hash (appendAt hash acc k v) := WF_appendAt hw hk v (by omega)
    have hnd_rec : (keysOf (appendAt hash acc k v) ++ rest.map Prod.fst).Nodup := by
      refine (((keysOf_appendAt hw k v).append_right _).nodup_iff).2 ?_
      have hassoc : keysOf acc ++ [k] ++ rest.map Prod.fst =
          keysOf acc ++ (k :: rest.map Prod.fst) := by
        simp
      rw [hassoc]
      simpa using hnd
    have hload_rec :
        4 * ((appendAt hash acc k v).size + (rest.length : Int)) ≤
          3 * (((appendAt hash acc k v).capacity : Nat) : Int) := by
      rw [appendAt_size, appendAt_capacity]
      omega
    obtain ⟨t2, hrun, hcap, hsize, hperm2, hw2⟩ :=
      reinsertWith_spec fuel rest (appendAt hash acc k v) hwa hnd_rec hload_rec
    refine ⟨t2, ?_, ?_, ?_, ?_, hw2⟩
    · simp only [reinsertWith, hins]
      exact hrun
    · rw [hcap, appendAt_capacity]
    · rw [hsize, appendAt_size]
      simp only [List.length_cons]
      push_cast
      ring
    · refine hperm2.trans ?_
      refine ((entries_appendAt hw k v).append_right rest).trans ?_
      simp

theorem insertF_fresh_spec (fuel : Nat) {t : Table V} {k : String} (hw : WF hash t)
    (hf : found hash t k = none) (v : Option V) (allow : Bool) :
    ∃ t', insertF hash (fuel + 2) t k v allow = some (t', true) ∧
      WF hash t' ∧ t'.size = t.size + 1 ∧
      entries t' ~ entries t ++ [(k, v)] ∧
      t'.capacity = (if 3 * (t.capacity : Int) < 4 * (t.size + 1)
        then t.capacity * 2 + 1 else t.capacity) := by
  have hk : k ∉ keysOf t := (found_eq_none_iff hw).1 hf
  by_cases htr : 3 * (t.capacity : Int) < 4 * (t.size + 1)
  · have hr : shouldResize (appendAt hash t k v) = true := by
      rw [shouldResize_eq_true_iff, appendAt_size, appendAt_capacity]
      exact htr
    have heq := insertF_fresh_resize (fuel + 1) hf (v := v) hr allow
    have hcap2 : max 5 ((appendAt hash t k v).capacity * 2 + 1) = t.capacity * 2 + 1 := by
      rw [appendAt_capacity]
      have := hw.cap_ge
      omega
    rw [hcap2] at heq
    have hwf : WF hash (freshTable V (t.capacity * 2 + 1)) :=
      WF_freshTable hash (by have := hw.cap_ge; omega)
    have happlen : ((entries (appendAt hash t k v)).length : Int) = t.size + 1 := by
      have hlen := (entries_appendAt hw k v).length_eq
      have hs := hw.size_eq
      simp only [List.length_append, List.length_cons, List.length_nil] at hlen
      omega
    have hnd2 : (keysOf (freshTable V (t.capacity * 2 + 1)) ++
        (entries (appendAt hash t k v)).map Prod.fst).Nodup := by
      rw [keysOf, entries_freshTable]
      simp only [List.map_nil, List.nil_append]
      exact keysOf_appendAt_nodup hw hk v
    have hload2 : 4 * ((freshTable V (t.capacity * 2 + 1)).size +
        ((entries (appendAt hash t k v)).length : Int)) ≤
        3 * (((freshTable V (t.capacity * 2 + 1)).capacity : Nat) : Int) := by
      have hs0 : (freshTable V (t.capacity * 2 + 1)).size = 0 := rfl
      have hc0 : (freshTable V (t.capacity * 2 + 1)).capacity = t.capacity * 2 + 1 := rfl
      rw [hs0, hc0, happlen]
      have := hw.load_le
      have := hw.cap_ge
      push_cast
      omega
    obtain ⟨t2, hrun, hcap, hsize, hperm2, hw2⟩ :=
      reinsertWith_spec fuel (entries (appendAt hash t k v))
        (freshTable V (t.capacity * 2 + 1)) hwf hnd2 hload2
    refine ⟨t2, ?_, hw2, ?_, ?_, ?_⟩
    · rw [heq, hrun]
      rfl
    · rw [hsize, happlen]
      have hs0 : (freshTable V (t.capacity * 2 + 1)).size = 0 := rfl
      rw [hs0]
      ring
    · refine hperm2.trans ?_
      rw [entries_freshTable]
      simp only [List.nil_append]
      exact entries_appendAt hw k v
    · rw [if_pos htr, hcap]
      rfl
  · have hr : shouldResize (appendAt hash t k v) = false := by
      rw [shouldResize_eq_false_iff, appendAt_size, appendAt_capacity]
      omega
    refine ⟨appendAt hash t k v,
      insertF_fresh_no_resize (fuel + 1) hf hr allow,
      WF_appendAt hw hk v (by omega), appendAt_size t k v,
      entries_appendAt hw k v, ?_⟩
    rw [if_neg htr, appendAt_capacity]

/-! ### Derived per-operation specifications -/

theorem found_after_append {t t' : Table V} {k : String} {v : Option V} (hw : WF hash t)
    (hw' : WF hash t') (hperm : entries t' ~ entries t ++ [(k, v)]) :
    found hash t' k = some v ∧ ∀ k', k' ≠ k → found hash t' k' = found hash t k' := by
  constructor
  · refine (found_eq_some_iff hw').2 ?_
    refine hperm.mem_iff.2 ?_
    simp
  · intro k' hne
    have hkeys : keysOf t' ~ keysOf t ++ [k] := by
      have := hperm.map Prod.fst
      simpa [keysOf, List.map_append] using this
    cases hfo : found hash t k' with
    | some w =>
      refine (found_eq_some_iff hw').2 ?_
      refine hperm.mem_iff.2 ?_
      exact List.mem_append_left _ ((found_eq_some_iff hw).1 hfo)
    | none =>
      refine (found_eq_none_iff hw').2 ?_
      intro hmem
      have h2 := hkeys.mem_iff.1 hmem
      rcases List.mem_append.1 h2 with h | h
      · exact ((found_eq_none_iff hw).1 hfo) h
      · rw [List.mem_singleton] at h
        exact hne h

theorem insertOp_update {t : Table V} {k : String} {w : Option V}
    (hf : found hash t k = some w) (v : Option V) :
    insertOp hash t k v true = some (updateAt hash t k v, true) :=
  insertF_found_update 1 hf v

theorem insertOp_reject {t : Table V} {k : String} {w : Option V}
    (hf : found hash t k = some w) (v : Option V) :
    insertOp hash t k v false = some (t, false) :=
  insertF_found_reject 1 hf v

theorem insertOp_fresh {t : Table V} {k : String} (hw : WF hash t)
    (hf : found hash t k = none) (v : Option V) (allow : Bool) :
    ∃ t', insertOp hash t k v allow = some (t', true) ∧
      WF hash t' ∧ t'.size = t.size + 1 ∧
      entries t' ~ entries t ++ [(k, v)] ∧
      t'.capacity = (if 3 * (t.capacity : Int) < 4 * (t.size + 1)
        then t.capacity * 2 + 1 else t.capacity) :=
  insertF_fresh_spec 0 hw hf v allow

theorem toFinset_eq_of_perm {l₁ l₂ : List String} (h : l₁ ~ l₂) :
    l₁.toFinset = l₂.toFinset := by
  ext a
  simp [List.mem_toFinset, h.mem_iff]

theorem toFinset_erase_of_nodup {l : List String} (h : l.Nodup) (k : String) :
    (l.erase k).toFinset = l.toFinset.erase k := by
  ext a
  simp [List.mem_toFinset, h.mem_erase_iff, Finset.mem_erase]

theorem mem_keyFinset {t : Table V} {k : String} :
    k ∈ keyFinset t ↔ k ∈ keysOf t := by
  rw [keyFinset, List.mem_toFinset]

theorem size_eq_card {t : Table V} (hw : WF hash t) :
    t.size = ((keyFinset t).card : Int) := by
  rw [keyFinset, List.toFinset_card_of_nodup hw.nodup]
  have hlen : (keysOf t).length = (entries t).length := by simp [keysOf]
  rw [hlen]
  exact hw.size_eq

theorem insert_step {t : Table V} (hw : WF hash t) (k : String) (v : Option V)
    (allow : Bool) :
    ∃ t' ok, insertOp hash t k v allow = some (t', ok) ∧ WF hash t' ∧
      keyFinset t' = insert k (keyFinset t) := by
  cases hfo : found hash t k with
  | some w =>
    have hkin : k ∈ keysOf t :=
      mem_keysOf_iff.2 ⟨w, (found_eq_some_iff hw).1 hfo⟩
    have hself : insert k (keyFinset t) = keyFinset t :=
      Finset.insert_eq_self.2 (mem_keyFinset.2 hkin)
    cases allow with
    | true =>
      refine ⟨updateAt hash t k v, true, insertOp_update hfo v, WF_updateAt hw v, ?_⟩
      rw [keyFinset, keysOf_updateAt hw k v, hself]
      rfl
    | false =>
      exact ⟨t, false, insertOp_reject hfo v, hw, hself.symm⟩
  | none =>
    obtain ⟨t', hins, hw', hsize, hperm, hcap⟩ := insertOp_fresh hw hfo v allow
    refine ⟨t', true, hins, hw', ?_⟩
    have hkeys : keysOf t' ~ keysOf t ++ [k] := by
      have := hperm.map Prod.fst
      simpa [keysOf, List.map_append] using this
    rw [keyFinset, keyFinset, toFinset_eq_of_perm hkeys]
    ext a
    simp [or_comm]

theorem delete_step {t : Table V} (hw : WF hash t) (k : String) :
    WF hash (deleteOp hash t k).1 ∧
      keyFinset (deleteOp hash t k).1 = (keyFinset t).erase k := by
  cases hfo : found hash t k with
  | some w =>
    rw [deleteOp_found hfo]
    refine ⟨WF_removeAt hw hfo, ?_⟩
    rw [keyFinset, keysOf_removeAt hw hfo, toFinset_erase_of_nodup hw.nodup]
    rfl
  | none =>
    rw [deleteOp_not_found hfo]
    refine ⟨hw, ?_⟩
    have hnot : k ∉ keyFinset t := fun hm =>
      ((found_eq_none_iff hw).1 hfo) (mem_keyFinset.1 hm)
    exact (Finset.erase_eq_of_not_mem hnot).symm

theorem runOps_spec (hash : String → Int) :
    ∀ (ops : List (Op V)) (t : Table V), WF hash t →
      ∃ t', runOps hash ops t = some t' ∧ WF hash t' ∧
        keyFinset t' = liveKeys ops (keyFinset t)
  | [], t => fun hw => ⟨t, rfl, hw, rfl⟩
  | Op.ins k v a :: rest, t => by
    intro hw
    obtain ⟨t1, ok, hins, hw1, hkf⟩ := insert_step hw k v a
    obtain ⟨t', hrun, hw', hkf'⟩ := runOps_spec hash rest t1 hw1
    refine ⟨t', ?_, hw', ?_⟩
    · simp only [runOps, hins]
      exact hrun
    · rw [hkf', liveKeys, hkf]
  | Op.del k :: rest, t => by
    intro hw
    obtain ⟨hw1, hkf⟩ := delete_step (k := k) hw
    obtain ⟨t', hrun, hw', hkf'⟩ := runOps_spec hash rest _ hw1
    refine ⟨t', hrun, hw', ?_⟩
    rw [hkf', liveKeys, hkf]

theorem WF_of_runOps {V : Type} (hash : String → Int) (ops : List (Op V)) (c : Int)
    (t : Table V) (h : runOps hash ops (mkTable V c) = some t) : WF hash t := by
  obtain ⟨t', hrun, hw', _⟩ := runOps_spec hash ops (mkTable V c) (WF_mkTable hash c)
  rw [h] at hrun
  exact (Option.some.inj hrun) ▸ hw'

theorem keyFinset_mkTable (V : Type) (c : Int) : keyFinset (mkTable V c) = ∅ := by
  rw [keyFinset, keysOf, entries_mkTable]
  rfl

end Inventory

namespace Q3

theorem range'_prod (m : Nat) :
    (List.range' 2 m).foldl (fun (acc : Int) (i : Nat) => acc * (i : Int)) 1 =
      ((m + 1).factorial : Int) := by
  induction m with
  | zero => simp [Nat.factorial]
  | succ m ih =>
    rw [List.range'_concat, List.foldl_append]
    simp only [List.foldl_cons, List.foldl_nil]
    rw [ih]
    push_cast [Nat.factorial_succ]
    ring

/-- Claim C10: `factorial(n)` raises `ValueError` exactly when `n < 0`, and for
every integer `n ≥ 0` it returns the mathematical factorial of `n` (in exact
integer arithmetic), in particular `factorial(0) = 1` and `factorial(1) = 1`. -/
theorem C10_factorial_correct :
    (∀ n : Int, n < 0 → factorial n = Except.error "n must be non-negative") ∧
    (∀ n : Int, 0 ≤ n → factorial n = Except.ok ((n.toNat.factorial : Int))) ∧
    factorial 0 = Except.ok 1 ∧ factorial 1 = Except.ok 1 := by
  have hok : ∀ n : Int, 0 ≤ n → factorial n = Except.ok ((n.toNat.factorial : Int)) := by
    intro n hn
    rw [factorial, if_neg (not_lt.2 hn)]
    rcases eq_or_lt_of_le hn with h | h
    · rw [← h]
      norm_num
      rfl
    · have h1 : (n - 1).toNat + 1 = n.toNat := by omega
      rw [range'_prod, h1]
  refine ⟨?_, hok, ?_, ?_⟩
  · intro n hn
    rw [factorial, if_pos hn]
  · simpa using hok 0 le_rfl
  · simpa [Nat.factorial] using hok 1 (by norm_num)

/-- Witness for C10: the error branch at `n = -3` and the value at `n = 5`. -/
theorem C10_witness :
    Q3.factorial (-3) = Except.error "n must be non-negative" ∧
    Q3.factorial 5 = Except.ok 120 := by
  constructor
  · exact C10_factorial_correct.1 (-3) (by norm_num)
  · have h := C10_factorial_correct.2.1 5 (by norm_num)
    rw [h]
    norm_num [Nat.factorial]

end Q3

namespace Inventory

open scoped List

/-- Claim C1 counterexample: inserting the Python value `None` under key
`"a"` succeeds (the insert reports `True`), yet `contains("a")` is `False`
afterwards, because `contains` is `get(key) is not None` and the stored value
is `None`.  So the claim that `contains(key)` is true after every successful
`insert(key, value, allow_update=True)` fails for `value = None`. -/
theorem C1_counterexample :
    (insertOp (fun _ => (0 : Int)) (mkTable Nat 5) "a" none true).map
        (fun p => (p.2, containsKey (fun _ => (0 : Int)) p.1 "a")) =
      some (true, false) := by
  decide

/-- Claim C1 (amended): if `insert(key, value, allow_update=True)` on a
well-formed table returns success, then `get(key)` returns exactly the stored
value, and — provided the stored value is not `None` — `contains(key)` is
true.  (The unamended claim, with `contains` unconditionally true, is refuted
by `C1_counterexample`.) -/
theorem C1_insert_get_contains {V : Type} (hash : String → Int) (t t' : Table V)
    (k : String) (v : Option V) (ok : Bool) (hw : WF hash t)
    (h : insertOp hash t k v true = some (t', ok)) :
    ok = true ∧ get hash t' k = v ∧ (v.isSome = true → containsKey hash t' k = true) := by
  have hfound : found hash t' k = some v ∧ ok = true := by
    cases hfo : found hash t k with
    | some w =>
      rw [insertOp_update hfo v] at h
      simp only [Option.some.injEq, Prod.mk.injEq] at h
      obtain ⟨rfl, rfl⟩ := h
      exact ⟨found_updateAt_self hw hfo v, rfl⟩
    | none =>
      obtain ⟨t2, hins, hw', _, hperm, _⟩ := insertOp_fresh hw hfo v true
      rw [hins] at h
      simp only [Option.some.injEq, Prod.mk.injEq] at h
      obtain ⟨rfl, rfl⟩ := h
      exact ⟨(found_after_append hw hw' hperm).1, rfl⟩
  obtain ⟨hf', hok⟩ := hfound
  have hget : get hash t' k = v := by
    rw [get_eq_found, hf']
  refine ⟨hok, hget, ?_⟩
  intro hv
  rw [containsKey, hget]
  exact hv

/-- Witness for C1: inserting `3` under `"a"` into a fresh capacity-5 table;
`get` returns `3` and `contains` is true. -/
theorem C1_witness :
    true = true ∧
    get (fun _ => (0 : Int)) (⟨5, [[("a", some 3)], [], [], [], []], 1⟩ : Table Nat) "a" =
      some 3 ∧
    containsKey (fun _ => (0 : Int))
      (⟨5, [[("a", some 3)], [], [], [], []], 1⟩ : Table Nat) "a" = true := by
  have h := C1_insert_get_contains (fun _ => 0) (mkTable Nat 5)
    ⟨5, [[("a", some 3)], [], [], [], []], 1⟩ "a" (some 3) true
    (WF_mkTable _ _) (by decide)
  exact ⟨h.1, h.2.1, h.2.2 rfl⟩

/-- Claim C2: after `insert(key, v1, allow_update=False)` succeeds, a second
`insert(key, v2, allow_update=False)` returns failure and leaves the table —
the whole state, hence also size and the stored value — unchanged, and
`get(key)` still returns `v1`. -/
theorem C2_duplicate_insert_rejected {V : Type} (hash : String → Int) (t t1 : Table V)
    (k : String) (v1 v2 : Option V) (hw : WF hash t)
    (h : insertOp hash t k v1 false = some (t1, true)) :
    insertOp hash t1 k v2 false = some (t1, false) ∧ get hash t1 k = v1 := by
  cases hfo : found hash t k with
  | some w =>
    rw [insertOp_reject hfo v1] at h
    simp at h
  | none =>
    obtain ⟨t2, hins, hw', _, hperm, _⟩ := insertOp_fresh hw hfo v1 false
    rw [hins] at h
    simp only [Option.some.injEq, Prod.mk.injEq, and_true] at h
    subst h
    have hfound := (found_after_append hw hw' hperm).1
    refine ⟨insertOp_reject hfound v2, ?_⟩
    rw [get_eq_found, hfound]

/-- Witness for C2: after inserting `1` under `"a"` with updates disallowed,
a second insert of `2` under `"a"` fails and leaves the table unchanged. -/
theorem C2_witness :
    insertOp (fun _ => (0 : Int)) (⟨5, [[("a", some 1)], [], [], [], []], 1⟩ : Table Nat)
        "a" (some 2) false =
      some (⟨5, [[("a", some 1)], [], [], [], []], 1⟩, false) ∧
    get (fun _ => (0 : Int)) (⟨5, [[("a", some 1)], [], [], [], []], 1⟩ : Table Nat) "a" =
      some 1 :=
  C2_duplicate_insert_rejected (fun _ => 0) (mkTable Nat 5)
    ⟨5, [[("a", some 1)], [], [], [], []], 1⟩ "a" (some 1) (some 2)
    (WF_mkTable _ _) (by decide)

theorem insert_fresh_chain {V : Type} {hash : String → Int} {t : Table V} {k : String}
    (hw : WF hash t) (hk : k ∉ keysOf t) (v : Option V) :
    ∃ t', insertOp hash t k v true = some (t', true) ∧ WF hash t' ∧
      t'.size = t.size + 1 ∧ keysOf t' ~ keysOf t ++ [k] ∧
      t'.capacity = (if 3 * (t.capacity : Int) < 4 * (t.size + 1)
        then t.capacity * 2 + 1 else t.capacity) := by
  obtain ⟨t', hins, hw', hsize, hperm, hcap⟩ :=
    insertOp_fresh hw ((found_eq_none_iff hw).2 hk) v true
  refine ⟨t', hins, hw', hsize, ?_, hcap⟩
  have := hperm.map Prod.fst
  simpa [keysOf, List.map_append] using this

/-- Claim C3: a resize happens exactly when the load factor exceeds 0.75
right after an insertion that added a new entry — an update or a rejected
duplicate never changes the capacity — and the new capacity is
`old_capacity * 2 + 1`; in particular, starting from a table constructed with
capacity 5, the 4th distinct-key insert finds `4/5 > 0.75` and resizes to
capacity 11. -/
theorem C3_resize_policy {V : Type} (hash : String → Int) :
    (∀ (t : Table V) (k : String) (v : Option V) (allow : Bool), WF hash t →
      found hash t k = none →
      ∃ t', insertOp hash t k v allow = some (t', true) ∧
        t'.capacity = (if 3 * (t.capacity : Int) < 4 * (t.size + 1)
          then t.capacity * 2 + 1 else t.capacity)) ∧
    (∀ (t : Table V) (k : String) (v : Option V) (allow : Bool) (w : Option V),
      WF hash t → found hash t k = some w →
      ∃ t' ok, insertOp hash t k v allow = some (t', ok) ∧ t'.capacity = t.capacity) ∧
    (∀ (k1 k2 k3 k4 : String) (v1 v2 v3 v4 : Option V),
      [k1, k2, k3, k4].Nodup →
      ∃ t3 t4,
        runOps hash [Op.ins k1 v1 true, Op.ins k2 v2 true, Op.ins k3 v3 true]
          (mkTable V 5) = some t3 ∧
        t3.capacity = 5 ∧ t3.size = 3 ∧
        insertOp hash t3 k4 v4 true = some (t4, true) ∧ t4.capacity = 11) := by
  refine ⟨?_, ?_, ?_⟩
  · intro t k v allow hw hf
    obtain ⟨t', hins, _, _, _, hcap⟩ := insertOp_fresh hw hf v allow
    exact ⟨t', hins, hcap⟩
  · intro t k v allow w hw hf
    cases allow with
    | true => exact ⟨updateAt hash t k v, true, insertOp_update hf v, rfl⟩
    | false => exact ⟨t, false, insertOp_reject hf v, rfl⟩
  · intro k1 k2 k3 k4 v1 v2 v3 v4 hnd
    have h12 : k1 ≠ k2 := by rintro rfl; simp at hnd
    have h13 : k1 ≠ k3 := by rintro rfl; simp at hnd
    have h14 : k1 ≠ k4 := by rintro rfl; simp at hnd
    have h23 : k2 ≠ k3 := by rintro rfl; simp at hnd
    have h24 : k2 ≠ k4 := by rintro rfl; simp at hnd
    have h34 : k3 ≠ k4 := by rintro rfl; simp at hnd
    have hc0 : (mkTable V 5).capacity = 5 := by rw [capacity_mkTable]; decide
    have hs0 : (mkTable V 5).size = 0 := rfl
    have hk0 : keysOf (mkTable V 5) = [] := by rw [keysOf, entries_mkTable]; rfl
    obtain ⟨t1, hins1, hw1, hsz1, hkey1, hcap1⟩ :=
      insert_fresh_chain (WF_mkTable hash 5) (k := k1) (by rw [hk0]; simp) v1
    rw [hs0] at hsz1
    rw [hs0, hc0] at hcap1
    rw [if_neg (by norm_num)] at hcap1
    have hkey1' : keysOf t1 ~ [k1] := by
      refine hkey1.trans ?_
      rw [hk0]
      simp
    obtain ⟨t2, hins2, hw2, hsz2, hkey2, hcap2⟩ :=
      insert_fresh_chain hw1 (k := k2) (fun hm => by
        have h := hkey1'.mem_iff.1 hm
        rw [List.mem_singleton] at h
        exact h12 h.symm) v2
    rw [hsz1] at hsz2
    rw [hsz1, hcap1] at hcap2
    rw [if_neg (by norm_num)] at hcap2
    have hkey2' : keysOf t2 ~ [k1, k2] := by
      refine hkey2.trans ?_
      exact hkey1'.append_right [k2]
    obtain ⟨t3, hins3, hw3, hsz3, hkey3, hcap3⟩ :=
      insert_fresh_chain hw2 (k := k3) (fun hm => by
        have h := hkey2'.mem_iff.1 hm
        rcases List.mem_cons.1 h with h | h
        · exact h13 h.symm
        · rw [List.mem_singleton] at h
          exact h23 h.symm) v3
    rw [hsz2] at hsz3
    rw [hsz2, hcap2] at hcap3
    rw [if_neg (by norm_num)] at hcap3
    have hkey3' : keysOf t3 ~ [k1, k2, k3] := by
      refine hkey3.trans ?_
      refine (hkey2'.append_right [k3]).trans ?_
      simp
    obtain ⟨t4, hins4, _, _, _, hcap4⟩ :=
      insert_fresh_chain hw3 (k := k4) (fun hm => by
        have h := hkey3'.mem_iff.1 hm
        rcases List.mem_cons.1 h with h | h
        · exact h14 h.symm
        · rcases List.mem_cons.1 h with h | h
          · exact h24 h.symm
          · rw [List.mem_singleton] at h
            exact h34 h.symm) v4
    rw [hsz3, hcap3] at hcap4
    rw [if_pos (by norm_num)] at hcap4
    refine ⟨t3, t4, ?_, hcap3, by rw [hsz3]; norm_num, hins4, by rw [hcap4]⟩
    simp only [runOps, hins1, hins2, hins3]

/-- Witness for C3: the four-distinct-key scenario with keys a, b, c, d under
a constant hash — after three inserts the table still has capacity 5 and size
3, and the fourth insert resizes it to capacity 11 — together with a rejected
duplicate leaving the capacity at 5. -/
theorem C3_witness :
    runOps (fun _ => (0 : Int))
        [Op.ins "a" (some 1) true, Op.ins "b" (some 2) true, Op.ins "c" (some 3) true]
        (mkTable Nat 5) =
      some ⟨5, [[("a", some 1), ("b", some 2), ("c", some 3)], [], [], [], []], 3⟩ ∧
    (⟨5, [[("a", some 1), ("b", some 2), ("c", some 3)], [], [], [], []], 3⟩ :
      Table Nat).capacity = 5 ∧
    (⟨5, [[("a", some 1), ("b", some 2), ("c", some 3)], [], [], [], []], 3⟩ :
      Table Nat).size = 3 ∧
    insertOp (fun _ => (0 : Int))
        (⟨5, [[("a", some 1), ("b", some 2), ("c", some 3)], [], [], [], []], 3⟩ :
          Table Nat) "d" (some 4) true =
      some (⟨11, [[("a", some 1), ("b", some 2), ("c", some 3), ("d", some 4)],
        [], [], [], [], [], [], [], [], [], []], 4⟩, true) ∧
    (⟨11, [[("a", some 1), ("b", some 2), ("c", some 3), ("d", some 4)],
      [], [], [], [], [], [], [], [], [], []], 4⟩ : Table Nat).capacity = 11 ∧
    insertOp (fun _ => (0 : Int))
        (⟨5, [[("a", some 1)], [], [], [], []], 1⟩ : Table Nat) "a" (some 2) false =
      some (⟨5, [[("a", some 1)], [], [], [], []], 1⟩, false) ∧
    (⟨5, [[("a", some 1)], [], [], [], []], 1⟩ : Table Nat).capacity = 5 := by
  obtain ⟨t3, t4, hrun, hc3, hs3, hins, hc4⟩ :=
    (C3_resize_policy (V := Nat) (fun _ => 0)).2.2 "a" "b" "c" "d"
      (some 1) (some 2) (some 3) (some 4) (by decide)
  have e3 : runOps (fun _ => (0 : Int))
      [Op.ins "a" (some 1) true, Op.ins "b" (some 2) true, Op.ins "c" (some 3) true]
      (mkTable Nat 5) =
      some ⟨5, [[("a", some 1), ("b", some 2), ("c", some 3)], [], [], [], []], 3⟩ := by
    decide
  have ht3 : t3 = ⟨5, [[("a", some 1), ("b", some 2), ("c", some 3)], [], [], [], []], 3⟩ := by
    rw [hrun] at e3
    exact Option.some.inj e3
  subst ht3
  have e4 : insertOp (fun _ => (0 : Int))
      (⟨5, [[("a", some 1), ("b", some 2), ("c", some 3)], [], [], [], []], 3⟩ :
        Table Nat) "d" (some 4) true =
      some (⟨11, [[("a", some 1), ("b", some 2), ("c", some 3), ("d", some 4)],
        [], [], [], [], [], [], [], [], [], []], 4⟩, true) := by
    decide
  have ht4 : t4 = ⟨11, [[("a", some 1), ("b", some 2), ("c", some 3), ("d", some 4)],
      [], [], [], [], [], [], [], [], [], []], 4⟩ := by
    rw [hins] at e4
    exact congrArg Prod.fst (Option.some.inj e4)
  subst ht4
  obtain ⟨t', ok, hrej, hcap'⟩ :=
    (C3_resize_policy (V := Nat) (fun _ => 0)).2.1
      (⟨5, [[("a", some 1)], [], [], [], []], 1⟩ : Table Nat) "a" (some 2) false (some 1)
      (WF_of_runOps (fun _ => 0) [Op.ins "a" (some 1) true] 5 _ (by decide)) (by decide)
  have erej : insertOp (fun _ => (0 : Int))
      (⟨5, [[("a", some 1)], [], [], [], []], 1⟩ : Table Nat) "a" (some 2) false =
      some (⟨5, [[("a", some 1)], [], [], [], []], 1⟩, false) := by
    decide
  exact ⟨hrun, hc3, hs3, hins, hc4, erej, rfl⟩

/-- Claim C4: on every table reachable by a finite sequence of insert/delete
operations from a freshly constructed table, the size equals the sum of the
bucket lengths, no key occurs in more than one entry across all buckets, and
the size equals the number of distinct keys inserted-and-not-deleted. -/
theorem C4_size_invariant {V : Type} (hash : String → Int) (c : Int)
    (ops : List (Op V)) (t : Table V)
    (h : runOps hash ops (mkTable V c) = some t) :
    t.size = ((t.buckets.map List.length).sum : Int) ∧
    (keysOf t).Nodup ∧
    t.size = ((liveKeys ops ∅).card : Int) := by
  obtain ⟨t', hrun, hw', hkf⟩ := runOps_spec hash ops (mkTable V c) (WF_mkTable hash c)
  rw [h] at hrun
  obtain rfl : t' = t := (Option.some.inj hrun).symm
  refine ⟨?_, hw'.nodup, ?_⟩
  · rw [hw'.size_eq, entries, List.length_flatten]
  · rw [size_eq_card hw', hkf, keyFinset_mkTable]

/-- Witness for C4: two inserts (colliding in one bucket under the constant
hash) followed by a delete, checked on the resulting concrete table. -/
theorem C4_witness :
    (⟨5, [[("b", some 2)], [], [], [], []], 1⟩ : Table Nat).size =
      (((⟨5, [[("b", some 2)], [], [], [], []], 1⟩ : Table Nat).buckets.map
        List.length).sum : Int) ∧
    (keysOf (⟨5, [[("b", some 2)], [], [], [], []], 1⟩ : Table Nat)).Nodup ∧
    (⟨5, [[("b", some 2)], [], [], [], []], 1⟩ : Table Nat).size =
      ((liveKeys [Op.ins "a" (some 1) true, Op.ins "b" (some 2) false,
        Op.del "a"] (∅ : Finset String)).card : Int) :=
  C4_size_invariant (fun _ => 0) 0
    [Op.ins "a" (some 1) true, Op.ins "b" (some 2) false, Op.del "a"]
    ⟨5, [[("b", some 2)], [], [], [], []], 1⟩ (by decide)

/-- Claim C5: when an insertion of a fresh key crosses the 0.75 load-factor
threshold, the insert succeeds, the capacity becomes `capacity * 2 + 1`, every
entry present before is still present after the resize, and `get` is
unchanged on every other key — no entry is lost and no value changed. -/
theorem C5_resize_preserves_entries {V : Type} (hash : String → Int) (t : Table V)
    (k : String) (v : Option V) (allow : Bool) (hw : WF hash t)
    (hk : found hash t k = none)
    (htr : 3 * (t.capacity : Int) < 4 * (t.size + 1)) :
    ∃ t', insertOp hash t k v allow = some (t', true) ∧
      t'.capacity = t.capacity * 2 + 1 ∧
      (∀ e ∈ entries t, e ∈ entries t') ∧
      (∀ k', k' ≠ k → get hash t' k' = get hash t k') := by
  obtain ⟨t', hins, hw', _, hperm, hcap⟩ := insertOp_fresh hw hk v allow
  refine ⟨t', hins, by rw [hcap, if_pos htr], ?_, ?_⟩
  · intro e he
    exact hperm.mem_iff.2 (List.mem_append_left _ he)
  · intro k' hne
    have hfe := (found_after_append hw hw' hperm).2 k' hne
    rw [get_eq_found, get_eq_found, hfe]

/-- Witness for C5: a capacity-5 table holding a, b, c; inserting d crosses
the threshold and resizes to 11 with all previous entries preserved and `get`
unchanged on key a. -/
theorem C5_witness :
    insertOp (fun _ => (0 : Int))
        (⟨5, [[("a", some 1), ("b", some 2), ("c", some 3)], [], [], [], []], 3⟩ :
          Table Nat) "d" (some 4) true =
      some (⟨11, [[("a", some 1), ("b", some 2), ("c", some 3), ("d", some 4)],
        [], [], [], [], [], [], [], [], [], []], 4⟩, true) ∧
    (⟨11, [[("a", some 1), ("b", some 2), ("c", some 3), ("d", some 4)],
      [], [], [], [], [], [], [], [], [], []], 4⟩ : Table Nat).capacity =
      (⟨5, [[("a", some 1), ("b", some 2), ("c", some 3)], [], [], [], []], 3⟩ :
        Table Nat).capacity * 2 + 1 ∧
    ("a", some 1) ∈ entries (⟨11, [[("a", some 1), ("b", some 2), ("c", some 3),
      ("d", some 4)], [], [], [], [], [], [], [], [], [], []], 4⟩ : Table Nat) ∧
    ("c", some 3) ∈ entries (⟨11, [[("a", some 1), ("b", some 2), ("c", some 3),
      ("d", some 4)], [], [], [], [], [], [], [], [], [], []], 4⟩ : Table Nat) ∧
    get (fun _ => (0 : Int))
      (⟨11, [[("a", some 1), ("b", some 2), ("c", some 3), ("d", some 4)],
        [], [], [], [], [], [], [], [], [], []], 4⟩ : Table Nat) "a" =
      get (fun _ => (0 : Int))
        (⟨5, [[("a", some 1), ("b", some 2), ("c", some 3)], [], [], [], []], 3⟩ :
          Table Nat) "a" := by
  obtain ⟨t', hins, hcap, hmem, hget⟩ :=
    C5_resize_preserves_entries (fun _ => 0)
      (⟨5, [[("a", some 1), ("b", some 2), ("c", some 3)], [], [], [], []], 3⟩ :
        Table Nat) "d" (some 4) true
      (WF_of_runOps (fun _ => 0)
        [Op.ins "a" (some 1) true, Op.ins "b" (some 2) true, Op.ins "c" (some 3) true]
        5 _ (by decide))
      (by decide) (by decide)
  have e4 : insertOp (fun _ => (0 : Int))
      (⟨5, [[("a", some 1), ("b", some 2), ("c", some 3)], [], [], [], []], 3⟩ :
        Table Nat) "d" (some 4) true =
      some (⟨11, [[("a", some 1), ("b", some 2), ("c", some 3), ("d", some 4)],
        [], [], [], [], [], [], [], [], [], []], 4⟩, true) := by
    decide
  have ht : t' = ⟨11, [[("a", some 1), ("b", some 2), ("c", some 3), ("d", some 4)],
      [], [], [], [], [], [], [], [], [], []], 4⟩ := by
    rw [hins] at e4
    exact congrArg Prod.fst (Option.some.inj e4)
  subst ht
  exact ⟨hins, hcap, hmem _ (by decide), hmem _ (by decide), hget "a" (by decide)⟩

/-- Claim C6: on a well-formed table, if `delete(key)` returns success then
afterwards `contains(key)` is false, the size has decreased by exactly one and
the capacity is unchanged; if the key is absent, `delete` returns failure and
the table is unchanged. -/
theorem C6_delete_spec {V : Type} (hash : String → Int) (t : Table V) (k : String)
    (hw : WF hash t) :
    ((deleteOp hash t k).2 = true →
      containsKey hash (deleteOp hash t k).1 k = false ∧
      (deleteOp hash t k).1.size = t.size - 1 ∧
      (deleteOp hash t k).1.capacity = t.capacity) ∧
    (found hash t k = none → deleteOp hash t k = (t, false)) := by
  cases hfo : found hash t k with
  | some w =>
    rw [deleteOp_found hfo]
    refine ⟨fun _ => ⟨?_, rfl, rfl⟩, ?_⟩
    · show (get hash (removeAt hash t k) k).isSome = false
      rw [get_eq_found, found_removeAt_self hw]
      rfl
    · intro hc
      simp [hfo] at hc
  | none =>
    rw [deleteOp_not_found hfo]
    exact ⟨fun hok => (Bool.false_ne_true hok).elim, fun _ => rfl⟩

/-- Witness for C6: deleting `"a"` from a one-entry table empties it with the
capacity intact, and deleting the absent key `"zz"` is a no-op failure. -/
theorem C6_witness :
    (containsKey (fun _ => (0 : Int))
        (deleteOp (fun _ => (0 : Int))
          (⟨5, [[("a", some 1)], [], [], [], []], 1⟩ : Table Nat) "a").1 "a" = false ∧
      (deleteOp (fun _ => (0 : Int))
        (⟨5, [[("a", some 1)], [], [], [], []], 1⟩ : Table Nat) "a").1.size =
        (⟨5, [[("a", some 1)], [], [], [], []], 1⟩ : Table Nat).size - 1 ∧
      (deleteOp (fun _ => (0 : Int))
        (⟨5, [[("a", some 1)], [], [], [], []], 1⟩ : Table Nat) "a").1.capacity =
        (⟨5, [[("a", some 1)], [], [], [], []], 1⟩ : Table Nat).capacity) ∧
    deleteOp (fun _ => (0 : Int))
        (⟨5, [[("a", some 1)], [], [], [], []], 1⟩ : Table Nat) "zz" =
      (⟨5, [[("a", some 1)], [], [], [], []], 1⟩, false) := by
  have hw : WF (fun _ => (0 : Int)) (⟨5, [[("a", some 1)], [], [], [], []], 1⟩ : Table Nat) :=
    WF_of_runOps (fun _ => 0) [Op.ins "a" (some 1) true] 5 _ (by decide)
  exact ⟨(C6_delete_spec (fun _ => 0) _ "a" hw).1 (by decide),
    (C6_delete_spec (fun _ => 0) _ "zz" hw).2 (by decide)⟩

/-- Claim C7: construction with any requested capacity below 5 succeeds (the
constructor is total) and yields capacity exactly 5, capacity is at least 5
for every requested capacity, and every table reachable by insert/delete
operations keeps capacity at least 5. -/
theorem C7_capacity_floor {V : Type} (hash : String → Int) :
    (∀ c : Int, c < 5 → (mkTable V c).capacity = 5) ∧
    (∀ c : Int, 5 ≤ (mkTable V c).capacity) ∧
    (∀ (c : Int) (ops : List (Op V)) (t : Table V),
      runOps hash ops (mkTable V c) = some t → 5 ≤ t.capacity) := by
  refine ⟨?_, ?_, ?_⟩
  · intro c hc
    rw [capacity_mkTable]
    omega
  · intro c
    rw [capacity_mkTable]
    have h5 : (5 : Int) ≤ max 5 c := le_max_left _ _
    omega
  · intro c ops t h
    exact (WF_of_runOps hash ops c t h).cap_ge

/-- Witness for C7: requested capacity −7 is floored to 5, capacity 100 stays
at least 5, and a reachable one-entry table keeps capacity at least 5. -/
theorem C7_witness :
    (mkTable Nat (-7)).capacity = 5 ∧ 5 ≤ (mkTable Nat 100).capacity ∧
    5 ≤ (⟨5, [[("a", some 1)], [], [], [], []], 1⟩ : Table Nat).capacity :=
  ⟨(C7_capacity_floor (V := Nat) (fun _ => 0)).1 (-7) (by norm_num),
    (C7_capacity_floor (V := Nat) (fun _ => 0)).2.1 100,
    (C7_capacity_floor (V := Nat) (fun _ => 0)).2.2 5 [Op.ins "a" (some 1) true] _
      (by decide)⟩

/-! ### Linear search lemmas for the benchmark claim -/

theorem linearSearch_eq_none_iff {q : String} :
    ∀ {arr : List (String × V)}, linearSearch arr q = none ↔ q ∉ arr.map Prod.fst
  | [] => by simp [linearSearch]
  | p :: rest => by
    by_cases h : p.1 = q
    · simp [linearSearch, h]
    · simp [linearSearch, h, Ne.symm h, linearSearch_eq_none_iff]

theorem linearSearch_eq_some_imp {q : String} {p : String × V} :
    ∀ {arr : List (String × V)}, linearSearch arr q = some p → p ∈ arr ∧ p.1 = q
  | [] => by simp [linearSearch]
  | r :: rest => by
    simp only [linearSearch]
    split
    · next h =>
      intro he
      injection he with he
      subst he
      exact ⟨List.mem_cons_self _ _, h⟩
    · next h =>
      intro he
      obtain ⟨h1, h2⟩ := linearSearch_eq_some_imp he
      exact ⟨List.mem_cons_of_mem _ h1, h2⟩

theorem linearSearch_eq_some_of_mem {q : String} {p : String × V} :
    ∀ {arr : List (String × V)}, (arr.map Prod.fst).Nodup → p ∈ arr → p.1 = q →
      linearSearch arr q = some p
  | [] => by simp
  | r :: rest => by
    intro hnd hm hq
    simp only [List.map_cons, List.nodup_cons, List.mem_map] at hnd
    rcases List.mem_cons.1 hm with h | h
    · subst h
      simp [linearSearch, hq]
    · have hr : r.1 ≠ q := by
        intro hrq
        exact hnd.1 ⟨p, h, by rw [hq, hrq]⟩
      simp only [linearSearch, if_neg hr]
      exact linearSearch_eq_some_of_mem hnd.2 h hq

/-- Claim C8: when the hash table and the flat record array mirror the same
set of records (unique keys), `table.get` and the first-match linear scan
return identical results on every query of a shared query sequence.  In this
pure embedding both lookups are functions of the containers, so neither pass
can mutate either container. -/
theorem C8_lookup_agreement {V : Type} (hash : String → Int) (t : Table (String × V))
    (arr : List (String × V)) (hw : WF hash t)
    (hmirror : entries t ~ arr.map (fun p => (p.1, some p)))
    (hnd : (arr.map Prod.fst).Nodup) (qs : List String) :
    qs.map (get hash t) = qs.map (linearSearch arr) := by
  have hpt : ∀ q, get hash t q = linearSearch arr q := by
    intro q
    cases hfo : found hash t q with
    | none =>
      have hq : q ∉ keysOf t := (found_eq_none_iff hw).1 hfo
      have hq2 : q ∉ arr.map Prod.fst := by
        intro hm
        apply hq
        have hkeys : keysOf t ~ arr.map Prod.fst := by
          have := hmirror.map Prod.fst
          simpa [keysOf, Function.comp] using this
        exact hkeys.mem_iff.2 hm
      rw [get_eq_found, hfo, linearSearch_eq_none_iff.2 hq2]
    | some w =>
      have hmem : (q, w) ∈ entries t := (found_eq_some_iff hw).1 hfo
      have hmem2 := hmirror.mem_iff.1 hmem
      rcases List.mem_map.1 hmem2 with ⟨p, hp, he⟩
      have hpq : p.1 = q := congrArg Prod.fst he
      have hwp : some p = w := congrArg Prod.snd he
      rw [get_eq_found, hfo, linearSearch_eq_some_of_mem hnd hp hpq, hwp]
  have hfun : get hash t = linearSearch arr := funext hpt
  rw [hfun]

/-- Witness for C8: a two-record mirror (records a and b stored identically in
the table and the flat list) answers the query sequence b, z identically
through both lookups. -/
theorem C8_witness :
    ["b", "z"].map (get (fun _ => (0 : Int))
      (⟨5, [[("a", some ("a", 10)), ("b", some ("b", 20))], [], [], [], []], 2⟩ :
        Table (String × Nat))) =
    ["b", "z"].map (linearSearch [("a", 10), ("b", 20)]) :=
  C8_lookup_agreement (fun _ => 0)
    (⟨5, [[("a", some ("a", 10)), ("b", some ("b", 20))], [], [], [], []], 2⟩ :
      Table (String × Nat)) [("a", 10), ("b", 20)]
    (WF_of_runOps (fun _ => 0)
      [Op.ins "a" (some ("a", 10)) true, Op.ins "b" (some ("b", 20)) true] 5 _
      (by decide))
    (by decide) (by decide) ["b", "z"]

/-- Claim C9: every table reachable by insert/delete operations from a fresh
table has load factor at most 0.75 (`4 * size ≤ 3 * capacity`), and every
insert on such a table succeeds within resize fuel 2 — the reinsertions
performed inside a resize never trigger a nested resize (a nested resize
would exhaust the fuel and return `none`, so `isSome` certifies its
absence). -/
theorem C9_load_invariant {V : Type} (hash : String → Int) (c : Int)
    (ops : List (Op V)) (t : Table V)
    (h : runOps hash ops (mkTable V c) = some t) :
    4 * t.size ≤ 3 * (t.capacity : Int) ∧
    ∀ (k : String) (v : Option V) (allow : Bool),
      (insertOp hash t k v allow).isSome = true := by
  have hw := WF_of_runOps hash ops c t h
  refine ⟨hw.load_le, ?_⟩
  intro k v allow
  cases hfo : found hash t k with
  | some w =>
    cases allow with
    | true => rw [insertOp_update hfo v]; rfl
    | false => rw [insertOp_reject hfo v]; rfl
  | none =>
    obtain ⟨t', hins, _, _, _, _⟩ := insertOp_fresh hw hfo v allow
    rw [hins]
    rfl

/-- Witness for C9: the reachable one-entry table has load `1/5 ≤ 0.75`, and
inserting a fresh key on it succeeds within the resize fuel. -/
theorem C9_witness :
    4 * (⟨5, [[("a", some 1)], [], [], [], []], 1⟩ : Table Nat).size ≤
      3 * ((⟨5, [[("a", some 1)], [], [], [], []], 1⟩ : Table Nat).capacity : Int) ∧
    (insertOp (fun _ => (0 : Int))
      (⟨5, [[("a", some 1)], [], [], [], []], 1⟩ : Table Nat) "zz" (some 5) true).isSome =
      true := by
  have h := C9_load_invariant (fun _ => 0) 5 [Op.ins "a" (some 1) true]
    (⟨5, [[("a", some 1)], [], [], [], []], 1⟩ : Table Nat) (by decide)
  exact ⟨h.1, h.2 "zz" (some 5) true⟩

end Inventory
